import Mathlib

/-!
Verification of the detection decoding and non-maximum-suppression engine of
the yolo4 example (src/yolo4/main.go).  The Go code is shallowly embedded:
matrix rows become lists of rationals (exact arithmetic in place of float32),
Go integers become Lean integers, the Go standard library rectangle type
(image.Rectangle with its Rect constructor, Size, Empty and Intersect
methods) is reproduced field by field, and the Go panic on an out-of-range
label index becomes an explicit error value.  Thresholds that the source
keeps as package constants (confThr, ovrThr) are passed as parameters, with
the constant values also defined below.
-/

namespace Yolo4

/-- Embedding of the Go standard library type image.Point. -/
structure Point where
  x : ℤ
  y : ℤ
deriving DecidableEq

/-- Embedding of the Go standard library type image.Rectangle. -/
structure Rectangle where
  min : Point
  max : Point
deriving DecidableEq

/-- Embedding of image.ZR, the zero rectangle. -/
def ZR : Rectangle := ⟨⟨0, 0⟩, ⟨0, 0⟩⟩

/-- Embedding of image.Rect: builds a rectangle from two corners, swapping
coordinates when needed so the result is well formed (min ≤ max). -/
def Rect (x0 y0 x1 y1 : ℤ) : Rectangle :=
  let px : ℤ × ℤ := if x1 < x0 then (x1, x0) else (x0, x1)
  let py : ℤ × ℤ := if y1 < y0 then (y1, y0) else (y0, y1)
  ⟨⟨px.1, py.1⟩, ⟨px.2, py.2⟩⟩

/-- Embedding of the Go method Rectangle.Size. -/
def Rectangle.Size (r : Rectangle) : Point :=
  ⟨r.max.x - r.min.x, r.max.y - r.min.y⟩

/-- Embedding of the Go method Rectangle.Empty. -/
def Rectangle.Empty (r : Rectangle) : Bool :=
  decide (r.max.x ≤ r.min.x) || decide (r.max.y ≤ r.min.y)

/-- Embedding of the Go method Rectangle.Intersect: clips r to s and returns
the zero rectangle when the clipped rectangle is empty. -/
def Rectangle.Intersect (r s : Rectangle) : Rectangle :=
  let c : Rectangle := ⟨⟨Max.max r.min.x s.min.x, Max.max r.min.y s.min.y⟩,
                        ⟨Min.min r.max.x s.max.x, Min.min r.max.y s.max.y⟩⟩
  if c.Empty then ZR else c

/-- Area of a rectangle as computed in the source:
d.detBBox.Size().X * d.detBBox.Size().Y. -/
def boxArea (r : Rectangle) : ℤ :=
  r.Size.x * r.Size.y

/-- Embedding of the struct YoloDetection of src/yolo4/main.go. -/
structure YoloDetection where
  detClass : ℕ
  detName : String
  detConf : ℚ
  detBBox : Rectangle
deriving DecidableEq

/-- The package constant confThr = 0.5 of src/yolo4/main.go. -/
def confThr : ℚ := 1 / 2

/-- The package constant ovrThr = 0.4 of src/yolo4/main.go. -/
def ovrThr : ℚ := 2 / 5

/-- Truncation of a rational toward zero, the semantics of the Go conversion
int(f) applied to the exact product modelled here (Int.tdiv is the Lean
integer division that truncates toward zero, as Go division does). -/
def qtrunc (q : ℚ) : ℤ :=
  Int.tdiv q.num (q.den : ℤ)

/-- Value and first index of the maximum of a list, the behaviour of
gocv.MinMaxLoc on the score sub-row (OpenCV reports the first position of
the maximum in scan order). Returns none on an empty list. -/
def argmaxFrom : List ℚ → Option (ℕ × ℚ)
  | [] => none
  | x :: xs =>
    match argmaxFrom xs with
    | none => some (0, x)
    | some (i, m) => if x < m then some (i + 1, m) else some (0, x)

/-- Error raised when the class index has no entry in the label list; this
models the Go runtime panic raised by classLabels[classID] at line 96 of
src/yolo4/main.go. -/
inductive DecodeErr where
  | lookupError (classId : ℕ) : DecodeErr
deriving DecidableEq

/-- Decoding of one row of one output layer, lines 91 to 105 of
src/yolo4/main.go: the score columns are row.ColRange(5, cols), the
confidence and class index come from MinMaxLoc over them, rows at or below
the threshold are dropped, and the box arithmetic truncates toward zero.
Returns ok none for a dropped row, ok (some d) for an emitted candidate and
an error when the label lookup would panic. -/
def decodeRow (classLabels : List String) (frameWidth frameHeight : ℤ)
    (thr : ℚ) (row : List ℚ) : Except DecodeErr (Option YoloDetection) :=
  match argmaxFrom (row.drop 5) with
  | none => Except.ok none
  | some (classID, confidence) =>
    if thr < confidence then
      match classLabels[classID]? with
      | none => Except.error (DecodeErr.lookupError classID)
      | some className =>
        let centerX := qtrunc (row.getD 0 0 * (frameWidth : ℚ))
        let centerY := qtrunc (row.getD 1 0 * (frameHeight : ℚ))
        let width := qtrunc (row.getD 2 0 * (frameWidth : ℚ))
        let height := qtrunc (row.getD 3 0 * (frameHeight : ℚ))
        let left := centerX - Int.tdiv width 2
        let top := centerY - Int.tdiv height 2
        Except.ok (some ⟨classID, className, confidence,
          Rect left top (left + width) (top + height)⟩)
    else Except.ok none

/-- Decoding of all rows of one layer, in row order (the inner loop of
extractPredictions). -/
def decodeRows (classLabels : List String) (frameWidth frameHeight : ℤ)
    (thr : ℚ) : List (List ℚ) → Except DecodeErr (List YoloDetection)
  | [] => Except.ok []
  | row :: rest =>
    match decodeRow classLabels frameWidth frameHeight thr row,
          decodeRows classLabels frameWidth frameHeight thr rest with
    | Except.ok none, Except.ok ds => Except.ok ds
    | Except.ok (some d), Except.ok ds => Except.ok (d :: ds)
    | Except.error e, _ => Except.error e
    | _, Except.error e => Except.error e

/-- Decoding of all layers, concatenated in layer order (the outer loop of
extractPredictions). -/
def decodeLayers (classLabels : List String) (frameWidth frameHeight : ℤ)
    (thr : ℚ) : List (List (List ℚ)) → Except DecodeErr (List YoloDetection)
  | [] => Except.ok []
  | layer :: rest =>
    match decodeRows classLabels frameWidth frameHeight thr layer,
          decodeLayers classLabels frameWidth frameHeight thr rest with
    | Except.ok ys, Except.ok zs => Except.ok (ys ++ zs)
    | Except.error e, _ => Except.error e
    | _, Except.error e => Except.error e

/-- The per-pair keep condition of the NMS loop, line 117 of
src/yolo4/main.go: float64(ovArea) <= ovrThr*float64(area), with the
denominator the area of the candidate d itself. -/
def suppressTest (t : ℚ) (d df : YoloDetection) : Bool :=
  decide ((boxArea (d.detBBox.Intersect df.detBBox) : ℚ) ≤ t * (boxArea d.detBBox : ℚ))

/-- The greedy accept and reject pass of lines 111 to 125 of
src/yolo4/main.go: a candidate is kept when the keep condition holds against
every already accepted detection (List.all short-circuits exactly as the
break in the loop does) and is then appended to the accepted list. -/
def nmsFilter (t : ℚ) : List YoloDetection → List YoloDetection → List YoloDetection
  | ydFiltered, [] => ydFiltered
  | ydFiltered, d :: rest =>
    if ydFiltered.all (fun df => suppressTest t d df) then
      nmsFilter t (ydFiltered ++ [d]) rest
    else
      nmsFilter t ydFiltered rest

/-- Insertion of a detection into a confidence-descending list, placing it
before the first entry of smaller or equal confidence. -/
def insertDesc (d : YoloDetection) : List YoloDetection → List YoloDetection
  | [] => [d]
  | e :: es => if e.detConf ≤ d.detConf then d :: e :: es else e :: insertDesc d es

/-- Deterministic realization of sort.Sort(sort.Reverse(yd)) at line 110 of
src/yolo4/main.go: sorts by detConf descending (the reversed comparator
yd[i].detConf < yd[j].detConf). -/
def sortDesc (l : List YoloDetection) : List YoloDetection :=
  l.foldr insertDesc []

/-- The whole suppression stage: sort by confidence descending, then the
greedy accept and reject pass starting from an empty accepted list. -/
def suppress (t : ℚ) (cands : List YoloDetection) : List YoloDetection :=
  nmsFilter t [] (sortDesc cands)

/-- Embedding of extractPredictions of src/yolo4/main.go: frameWidth is
imgSize[1] and frameHeight is imgSize[0], decoding uses the constant
confidence threshold and suppression the constant overlap threshold. -/
def extractPredictions (detLayers : List (List (List ℚ))) (imgSize : List ℤ)
    (classLabels : List String) : Except DecodeErr (List YoloDetection) :=
  match decodeLayers classLabels (imgSize.getD 1 0) (imgSize.getD 0 0) confThr detLayers with
  | Except.error e => Except.error e
  | Except.ok yd => Except.ok (suppress ovrThr yd)

/-! Helper lemmas about argmaxFrom, the MinMaxLoc model. -/

theorem argmaxFrom_eq_none {l : List ℚ} : argmaxFrom l = none ↔ l = [] := by
  cases l with
  | nil => simp [argmaxFrom]
  | cons x xs =>
    simp only [argmaxFrom]
    cases argmaxFrom xs with
    | none => simp
    | some p =>
      obtain ⟨i, m⟩ := p
      by_cases h : x < m <;> simp [h]

theorem argmaxFrom_getElem {l : List ℚ} {i : ℕ} {m : ℚ}
    (h : argmaxFrom l = some (i, m)) : l[i]? = some m := by
  induction l generalizing i m with
  | nil => simp [argmaxFrom] at h
  | cons x xs ih =>
    simp only [argmaxFrom] at h
    cases hx : argmaxFrom xs with
    | none =>
      rw [hx] at h
      dsimp only at h
      cases h
      simp
    | some p =>
      obtain ⟨j, mm⟩ := p
      rw [hx] at h
      dsimp only at h
      by_cases hlt : x < mm
      · rw [if_pos hlt] at h
        cases h
        simpa using ih hx
      · rw [if_neg hlt] at h
        cases h
        simp

theorem argmaxFrom_le {l : List ℚ} {i : ℕ} {m : ℚ}
    (h : argmaxFrom l = some (i, m)) : ∀ x ∈ l, x ≤ m := by
  induction l generalizing i m with
  | nil => simp [argmaxFrom] at h
  | cons x xs ih =>
    simp only [argmaxFrom] at h
    cases hx : argmaxFrom xs with
    | none =>
      rw [hx] at h
      dsimp only at h
      cases h
      have hnil : xs = [] := argmaxFrom_eq_none.mp hx
      subst hnil
      simp
    | some p =>
      obtain ⟨j, mm⟩ := p
      rw [hx] at h
      dsimp only at h
      by_cases hlt : x < mm
      · rw [if_pos hlt] at h
        cases h
        intro y hy
        rcases List.mem_cons.mp hy with rfl | hy
        · exact le_of_lt hlt
        · exact ih hx y hy
      · rw [if_neg hlt] at h
        cases h
        intro y hy
        rcases List.mem_cons.mp hy with rfl | hy
        · exact le_refl _
        · exact le_trans (ih hx y hy) (not_lt.mp hlt)

theorem argmaxFrom_first {l : List ℚ} {i : ℕ} {m : ℚ}
    (h : argmaxFrom l = some (i, m)) :
    ∀ j, j < i → ∀ x, l[j]? = some x → x < m := by
  induction l generalizing i m with
  | nil => simp [argmaxFrom] at h
  | cons x xs ih =>
    simp only [argmaxFrom] at h
    cases hx : argmaxFrom xs with
    | none =>
      rw [hx] at h
      dsimp only at h
      cases h
      intro j hj
      omega
    | some p =>
      obtain ⟨k, mm⟩ := p
      rw [hx] at h
      dsimp only at h
      by_cases hlt : x < mm
      · rw [if_pos hlt] at h
        cases h
        intro j hj y hy
        cases j with
        | zero =>
          simp only [List.getElem?_cons_zero, Option.some.injEq] at hy
          subst hy
          exact hlt
        | succ j =>
          simp only [List.getElem?_cons_succ] at hy
          exact ih hx j (by omega) y hy
      · rw [if_neg hlt] at h
        cases h
        intro j hj
        omega

/-! Helper lemmas inverting decodeRow. -/

theorem decodeRow_ok_some {L : List String} {fw fh : ℤ} {thr : ℚ}
    {row : List ℚ} {d : YoloDetection}
    (h : decodeRow L fw fh thr row = Except.ok (some d)) :
    argmaxFrom (row.drop 5) = some (d.detClass, d.detConf) ∧
    thr < d.detConf ∧
    L[d.detClass]? = some d.detName ∧
    d.detBBox =
      Rect (qtrunc (row.getD 0 0 * (fw : ℚ)) - Int.tdiv (qtrunc (row.getD 2 0 * (fw : ℚ))) 2)
        (qtrunc (row.getD 1 0 * (fh : ℚ)) - Int.tdiv (qtrunc (row.getD 3 0 * (fh : ℚ))) 2)
        (qtrunc (row.getD 0 0 * (fw : ℚ)) - Int.tdiv (qtrunc (row.getD 2 0 * (fw : ℚ))) 2
          + qtrunc (row.getD 2 0 * (fw : ℚ)))
        (qtrunc (row.getD 1 0 * (fh : ℚ)) - Int.tdiv (qtrunc (row.getD 3 0 * (fh : ℚ))) 2
          + qtrunc (row.getD 3 0 * (fh : ℚ))) := by
  unfold decodeRow at h
  cases hA : argmaxFrom (row.drop 5) with
  | none => rw [hA] at h; cases h
  | some p =>
    obtain ⟨cid, conf⟩ := p
    rw [hA] at h
    dsimp only at h
    by_cases ht : thr < conf
    · rw [if_pos ht] at h
      cases hL : L[cid]? with
      | none => rw [hL] at h; dsimp only at h; cases h
      | some nm =>
        rw [hL] at h
        dsimp only at h
        simp only [Except.ok.injEq, Option.some.injEq] at h
        subst h
        exact ⟨rfl, ht, hL, rfl⟩
    · rw [if_neg ht] at h
      cases h

theorem decodeRow_below {L : List String} {fw fh : ℤ} {thr : ℚ}
    {row : List ℚ} {i : ℕ} {c : ℚ}
    (hA : argmaxFrom (row.drop 5) = some (i, c)) (ht : ¬ thr < c) :
    decodeRow L fw fh thr row = Except.ok none := by
  unfold decodeRow
  rw [hA]
  dsimp only
  rw [if_neg ht]

theorem decodeRow_above_ne_none {L : List String} {fw fh : ℤ} {thr : ℚ}
    {row : List ℚ} {i : ℕ} {c : ℚ}
    (hA : argmaxFrom (row.drop 5) = some (i, c)) (ht : thr < c) :
    decodeRow L fw fh thr row ≠ Except.ok none := by
  unfold decodeRow
  rw [hA]
  dsimp only
  rw [if_pos ht]
  cases hL : L[i]? with
  | none => simp
  | some nm => simp

theorem decodeRow_lookup_fails {L : List String} {fw fh : ℤ} {thr : ℚ}
    {row : List ℚ} {i : ℕ} {c : ℚ}
    (hA : argmaxFrom (row.drop 5) = some (i, c)) (ht : thr < c)
    (hL : L[i]? = none) :
    decodeRow L fw fh thr row = Except.error (DecodeErr.lookupError i) := by
  unfold decodeRow
  rw [hA]
  dsimp only
  rw [if_pos ht, hL]

/-! Helper lemmas about the confidence-descending sort. -/

/-- The ordering invariant of the sorted candidate list: the later detection
has confidence at most that of the earlier one. -/
def ConfDesc (a b : YoloDetection) : Prop := b.detConf ≤ a.detConf

theorem insertDesc_perm (d : YoloDetection) (l : List YoloDetection) :
    (insertDesc d l).Perm (d :: l) := by
  induction l with
  | nil => exact List.Perm.refl _
  | cons e es ih =>
    simp only [insertDesc]
    by_cases h : e.detConf ≤ d.detConf
    · rw [if_pos h]
    · rw [if_neg h]
      exact (ih.cons e).trans (List.Perm.swap d e es)

theorem sortDesc_perm (l : List YoloDetection) : (sortDesc l).Perm l := by
  induction l with
  | nil => exact List.Perm.refl _
  | cons d l ih =>
    simp only [sortDesc, List.foldr_cons]
    exact (insertDesc_perm d _).trans (ih.cons d)

theorem insertDesc_pairwise {d : YoloDetection} {l : List YoloDetection}
    (h : l.Pairwise ConfDesc) : (insertDesc d l).Pairwise ConfDesc := by
  induction l with
  | nil => simp [insertDesc, ConfDesc]
  | cons e es ih =>
    rcases List.pairwise_cons.mp h with ⟨he, hes⟩
    simp only [insertDesc]
    by_cases hc : e.detConf ≤ d.detConf
    · rw [if_pos hc]
      refine List.pairwise_cons.mpr ⟨?_, h⟩
      intro b hb
      rcases List.mem_cons.mp hb with rfl | hb
      · exact hc
      · exact le_trans (he b hb) hc
    · rw [if_neg hc]
      refine List.pairwise_cons.mpr ⟨?_, ih hes⟩
      intro b hb
      have hb2 : b ∈ d :: es := (insertDesc_perm d es).mem_iff.mp hb
      rcases List.mem_cons.mp hb2 with rfl | hb2
      · exact le_of_lt (not_le.mp hc)
      · exact he b hb2

theorem sortDesc_pairwise (l : List YoloDetection) :
    (sortDesc l).Pairwise ConfDesc := by
  induction l with
  | nil => simp [sortDesc]
  | cons d l ih =>
    simp only [sortDesc, List.foldr_cons]
    exact insertDesc_pairwise ih

theorem sortDesc_of_pairwise {l : List YoloDetection}
    (h : l.Pairwise ConfDesc) : sortDesc l = l := by
  induction l with
  | nil => rfl
  | cons d l ih =>
    rcases List.pairwise_cons.mp h with ⟨hd, hl⟩
    simp only [sortDesc, List.foldr_cons]
    have hl2 : List.foldr insertDesc [] l = l := ih hl
    rw [hl2]
    cases l with
    | nil => rfl
    | cons e es =>
      simp only [insertDesc]
      rw [if_pos (show e.detConf ≤ d.detConf from hd e (by simp))]

/-! Helper lemmas about the greedy accept and reject pass. -/

/-- The pairwise property of an accepted list: every later entry passed the
keep test against every earlier entry. -/
def Kept (t : ℚ) (df d : YoloDetection) : Prop := suppressTest t d df = true

theorem nmsFilter_sublist (t : ℚ) :
    ∀ (l acc : List YoloDetection), (nmsFilter t acc l).Sublist (acc ++ l) := by
  intro l
  induction l with
  | nil =>
    intro acc
    simp [nmsFilter]
  | cons d rest ih =>
    intro acc
    simp only [nmsFilter]
    by_cases h : (acc.all fun df => suppressTest t d df) = true
    · rw [if_pos h]
      have h2 := ih (acc ++ [d])
      simpa [List.append_assoc] using h2
    · rw [if_neg h]
      exact (ih acc).trans (List.Sublist.append_left (List.sublist_cons_self d rest) acc)

theorem nmsFilter_pairwise (t : ℚ) :
    ∀ (l acc : List YoloDetection), acc.Pairwise (Kept t) →
      (nmsFilter t acc l).Pairwise (Kept t) := by
  intro l
  induction l with
  | nil =>
    intro acc hacc
    simpa [nmsFilter] using hacc
  | cons d rest ih =>
    intro acc hacc
    simp only [nmsFilter]
    by_cases h : (acc.all fun df => suppressTest t d df) = true
    · rw [if_pos h]
      refine ih (acc ++ [d]) ?_
      refine List.pairwise_append.mpr ⟨hacc, by simp, ?_⟩
      intro a ha b hb
      rcases List.mem_singleton.mp hb with rfl
      exact List.all_eq_true.mp h a ha
    · rw [if_neg h]
      exact ih acc hacc

theorem nmsFilter_fix (t : ℚ) :
    ∀ (l acc : List YoloDetection), l.Pairwise (Kept t) →
      (∀ d ∈ l, ∀ df ∈ acc, suppressTest t d df = true) →
      nmsFilter t acc l = acc ++ l := by
  intro l
  induction l with
  | nil =>
    intro acc _ _
    simp [nmsFilter]
  | cons d rest ih =>
    intro acc hp hcross
    rcases List.pairwise_cons.mp hp with ⟨hd, hrest⟩
    have hall : (acc.all fun df => suppressTest t d df) = true :=
      List.all_eq_true.mpr (fun df hdf => hcross d (by simp) df hdf)
    simp only [nmsFilter]
    rw [if_pos hall]
    have hcross2 : ∀ e ∈ rest, ∀ df ∈ acc ++ [d], suppressTest t e df = true := by
      intro e he df hdf
      rcases List.mem_append.mp hdf with hdf | hdf
      · exact hcross e (List.mem_cons_of_mem d he) df hdf
      · rcases List.mem_singleton.mp hdf with rfl
        exact hd e he
    rw [ih (acc ++ [d]) hrest hcross2]
    simp

theorem suppress_sorted (t : ℚ) (cands : List YoloDetection) :
    (suppress t cands).Pairwise ConfDesc := by
  have h1 := nmsFilter_sublist t (sortDesc cands) []
  simp only [List.nil_append] at h1
  exact List.Pairwise.sublist h1 (sortDesc_pairwise cands)

theorem suppress_pairwise_kept (t : ℚ) (cands : List YoloDetection) :
    (suppress t cands).Pairwise (Kept t) :=
  nmsFilter_pairwise t (sortDesc cands) [] (List.Pairwise.nil)

theorem suppress_idem (t : ℚ) (cands : List YoloDetection) :
    suppress t (suppress t cands) = suppress t cands := by
  have hsort : sortDesc (suppress t cands) = suppress t cands :=
    sortDesc_of_pairwise (suppress_sorted t cands)
  have hfix : nmsFilter t [] (suppress t cands) = [] ++ suppress t cands :=
    nmsFilter_fix t (suppress t cands) [] (suppress_pairwise_kept t cands)
      (by intro d _ df hdf; cases hdf)
  calc suppress t (suppress t cands)
      = nmsFilter t [] (sortDesc (suppress t cands)) := rfl
    _ = nmsFilter t [] (suppress t cands) := by rw [hsort]
    _ = suppress t cands := by rw [hfix]; simp

/-! Helper lemmas for layer-order invariance of decoding. -/

/-- Relation between two decode results: both fail, or both succeed with
outputs that are permutations of one another. -/
def ExceptPerm : Except DecodeErr (List YoloDetection) →
    Except DecodeErr (List YoloDetection) → Prop
  | Except.ok xs, Except.ok ys => xs.Perm ys
  | Except.error _, Except.error _ => True
  | _, _ => False

theorem exceptPerm_trans {a b c : Except DecodeErr (List YoloDetection)}
    (h1 : ExceptPerm a b) (h2 : ExceptPerm b c) : ExceptPerm a c := by
  cases a <;> cases b <;> cases c <;> simp only [ExceptPerm] at h1 h2 ⊢ <;> try trivial
  exact h1.trans h2

theorem decodeLayers_perm (L : List String) (fw fh : ℤ) (thr : ℚ) :
    ∀ {ls1 ls2 : List (List (List ℚ))}, ls1.Perm ls2 →
      ExceptPerm (decodeLayers L fw fh thr ls1) (decodeLayers L fw fh thr ls2) := by
  intro ls1 ls2 h
  induction h with
  | nil => simp [decodeLayers, ExceptPerm]
  | @cons x l1 l2 h ih =>
    simp only [decodeLayers]
    cases hx : decodeRows L fw fh thr x with
    | error e => simp [ExceptPerm]
    | ok ys =>
      cases h1 : decodeLayers L fw fh thr l1 with
      | error e1 =>
        cases h2 : decodeLayers L fw fh thr l2 with
        | error e2 => simp [ExceptPerm]
        | ok zs2 => rw [h1, h2] at ih; simp [ExceptPerm] at ih
      | ok zs1 =>
        cases h2 : decodeLayers L fw fh thr l2 with
        | error e2 => rw [h1, h2] at ih; simp [ExceptPerm] at ih
        | ok zs2 =>
          rw [h1, h2] at ih
          simp only [ExceptPerm] at ih ⊢
          exact ih.append_left ys
  | @swap a b l =>
    simp only [decodeLayers]
    cases ha : decodeRows L fw fh thr a <;>
      cases hb : decodeRows L fw fh thr b <;>
      cases hl : decodeLayers L fw fh thr l <;>
      simp only [ExceptPerm] <;> try trivial
    rename_i ra rb zs
    have hper : ((ra ++ rb) ++ zs).Perm ((rb ++ ra) ++ zs) :=
      List.perm_append_comm.append_right zs
    simpa [List.append_assoc] using hper.symm
  | trans h1 h2 ih1 ih2 => exact exceptPerm_trans ih1 ih2

/-- Detections with pairwise distinct confidences sort identically from any
input order. -/
def StrictDesc (a b : YoloDetection) : Prop := b.detConf < a.detConf

theorem sortDesc_eq_of_perm {xs ys : List YoloDetection} (hp : xs.Perm ys)
    (hnd : xs.Pairwise fun a b => a.detConf ≠ b.detConf) :
    sortDesc xs = sortDesc ys := by
  have hsymm : ∀ {a b : YoloDetection},
      (fun a b : YoloDetection => a.detConf ≠ b.detConf) a b →
      (fun a b : YoloDetection => a.detConf ≠ b.detConf) b a := by
    intro a b h
    exact h.symm
  have h1 : (sortDesc xs).Perm (sortDesc ys) :=
    (sortDesc_perm xs).trans (hp.trans (sortDesc_perm ys).symm)
  have hndx : (sortDesc xs).Pairwise (fun a b => a.detConf ≠ b.detConf) :=
    ((sortDesc_perm xs).pairwise_iff hsymm).mpr hnd
  have hndy : (sortDesc ys).Pairwise (fun a b => a.detConf ≠ b.detConf) :=
    ((sortDesc_perm ys).pairwise_iff hsymm).mpr ((hp.pairwise_iff hsymm).mp hnd)
  have hs1 : (sortDesc xs).Pairwise StrictDesc :=
    ((sortDesc_pairwise xs).and hndx).imp
      (fun h => lt_of_le_of_ne h.1 (Ne.symm h.2))
  have hs2 : (sortDesc ys).Pairwise StrictDesc :=
    ((sortDesc_pairwise ys).and hndy).imp
      (fun h => lt_of_le_of_ne h.1 (Ne.symm h.2))
  haveI : IsAntisymm YoloDetection StrictDesc :=
    ⟨fun a b u v => absurd (u.trans v) (lt_irrefl _)⟩
  exact List.eq_of_perm_of_sorted h1 hs1 hs2

theorem suppress_eq_of_perm {t : ℚ} {xs ys : List YoloDetection}
    (hp : xs.Perm ys) (hnd : xs.Pairwise fun a b => a.detConf ≠ b.detConf) :
    suppress t xs = suppress t ys := by
  unfold suppress
  rw [sortDesc_eq_of_perm hp hnd]

/-! Claim theorems. -/

/-- C1: in the greedy suppression pass over confidence-descending candidates,
a candidate d is rejected exactly when some already accepted detection
overlaps it with intersection area strictly greater than the threshold times
the area of the candidate d itself (the candidate area is the denominator,
not a union or IoU), and every candidate not so rejected is appended to the
accepted list; the keep test reads only the boxes, so the class fields play
no role in it. -/
theorem C1_reject_iff (t : ℚ) (acc : List YoloDetection) (d df : YoloDetection)
    (rest : List YoloDetection) (c1 c2 : ℕ) (n1 n2 : String) :
    (nmsFilter t acc (d :: rest) =
      if ∃ e ∈ acc,
          t * (boxArea d.detBBox : ℚ) < (boxArea (d.detBBox.Intersect e.detBBox) : ℚ)
      then nmsFilter t acc rest
      else nmsFilter t (acc ++ [d]) rest) ∧
    suppressTest t ⟨c1, n1, d.detConf, d.detBBox⟩ ⟨c2, n2, df.detConf, df.detBBox⟩
      = suppressTest t d df := by
  constructor
  · by_cases h : ∃ e ∈ acc,
        t * (boxArea d.detBBox : ℚ) < (boxArea (d.detBBox.Intersect e.detBBox) : ℚ)
    · rw [if_pos h]
      obtain ⟨e, he, hlt⟩ := h
      have hall : ¬ (acc.all fun df => suppressTest t d df) = true := by
        intro hall
        have h2 := List.all_eq_true.mp hall e he
        simp only [suppressTest, decide_eq_true_eq] at h2
        exact absurd hlt (not_lt.mpr h2)
      simp only [nmsFilter]
      rw [if_neg hall]
    · rw [if_neg h]
      have hall : (acc.all fun df => suppressTest t d df) = true := by
        refine List.all_eq_true.mpr ?_
        intro e he
        simp only [suppressTest, decide_eq_true_eq]
        by_contra hc
        exact h ⟨e, he, not_le.mp hc⟩
      simp only [nmsFilter]
      rw [if_pos hall]
  · rfl

/-- C3: a row is emitted exactly when its maximum score is strictly greater
than the confidence threshold: at or below the threshold the row decodes to
ok none, strictly above it the result is never ok none, and every emitted
candidate carries a confidence strictly greater than the threshold. -/
theorem C3_strict_threshold (L : List String) (fw fh : ℤ) (thr : ℚ)
    (row : List ℚ) (i : ℕ) (c : ℚ)
    (hA : argmaxFrom (row.drop 5) = some (i, c)) :
    (c ≤ thr → decodeRow L fw fh thr row = Except.ok none) ∧
    (thr < c → decodeRow L fw fh thr row ≠ Except.ok none) ∧
    (∀ d : YoloDetection, decodeRow L fw fh thr row = Except.ok (some d) →
      thr < d.detConf) := by
  refine ⟨?_, ?_, ?_⟩
  · intro h
    exact decodeRow_below hA (not_lt.mpr h)
  · intro h
    exact decodeRow_above_ne_none hA h
  · intro d hd
    exact (decodeRow_ok_some hd).2.1

/-- Witness for C3: a row whose maximum score 1/2 equals the threshold 1/2
is dropped silently. -/
theorem C3_strict_threshold_witness :
    decodeRow ["a"] 100 100 (1/2) [0, 0, 0, 0, 0, 1/2] = Except.ok none :=
  (C3_strict_threshold ["a"] 100 100 (1/2) [0, 0, 0, 0, 0, 1/2] 0 (1/2) rfl).1 le_rfl

/-- C4: every emitted candidate box is computed by truncating the scaled
geometry columns toward zero, halving the width and height with integer
division that truncates toward zero, and forming the rectangle with the
corners (left, top) and (left + width, top + height). -/
theorem C4_box_arithmetic (L : List String) (fw fh : ℤ) (thr : ℚ)
    (row : List ℚ) (d : YoloDetection)
    (h : decodeRow L fw fh thr row = Except.ok (some d)) :
    d.detBBox =
      Rect (qtrunc (row.getD 0 0 * (fw : ℚ)) - Int.tdiv (qtrunc (row.getD 2 0 * (fw : ℚ))) 2)
        (qtrunc (row.getD 1 0 * (fh : ℚ)) - Int.tdiv (qtrunc (row.getD 3 0 * (fh : ℚ))) 2)
        (qtrunc (row.getD 0 0 * (fw : ℚ)) - Int.tdiv (qtrunc (row.getD 2 0 * (fw : ℚ))) 2
          + qtrunc (row.getD 2 0 * (fw : ℚ)))
        (qtrunc (row.getD 1 0 * (fh : ℚ)) - Int.tdiv (qtrunc (row.getD 3 0 * (fh : ℚ))) 2
          + qtrunc (row.getD 3 0 * (fh : ℚ))) :=
  (decodeRow_ok_some h).2.2.2

/-- Witness for C4 at a concrete emitted candidate. -/
theorem C4_box_arithmetic_witness :
    decodeRow ["a"] 100 100 (1/2) [1/2, 1/2, 1/5, 1/5, 0, 9/10]
        = Except.ok (some ⟨0, "a", 9/10, Rect 40 40 60 60⟩) ∧
    (⟨0, "a", (9:ℚ)/10, Rect 40 40 60 60⟩ : YoloDetection).detBBox =
      Rect (qtrunc ((1:ℚ)/2 * ((100:ℤ) : ℚ)) - Int.tdiv (qtrunc ((1:ℚ)/5 * ((100:ℤ) : ℚ))) 2)
        (qtrunc ((1:ℚ)/2 * ((100:ℤ) : ℚ)) - Int.tdiv (qtrunc ((1:ℚ)/5 * ((100:ℤ) : ℚ))) 2)
        (qtrunc ((1:ℚ)/2 * ((100:ℤ) : ℚ)) - Int.tdiv (qtrunc ((1:ℚ)/5 * ((100:ℤ) : ℚ))) 2
          + qtrunc ((1:ℚ)/5 * ((100:ℤ) : ℚ)))
        (qtrunc ((1:ℚ)/2 * ((100:ℤ) : ℚ)) - Int.tdiv (qtrunc ((1:ℚ)/5 * ((100:ℤ) : ℚ))) 2
          + qtrunc ((1:ℚ)/5 * ((100:ℤ) : ℚ))) :=
  ⟨by norm_num [decodeRow, argmaxFrom, qtrunc, Rect]; decide,
   C4_box_arithmetic ["a"] 100 100 (1/2) [1/2, 1/2, 1/5, 1/5, 0, 9/10]
     ⟨0, "a", 9/10, Rect 40 40 60 60⟩
     (by norm_num [decodeRow, argmaxFrom, qtrunc, Rect]; decide)⟩

/-- C5: the suppressor output, which is the accepted list in append order,
is confidence-descending: every earlier detection has confidence greater
than or equal to every later one (in particular every adjacent pair). -/
theorem C5_output_sorted (t : ℚ) (cands : List YoloDetection) :
    (suppress t cands).Pairwise (fun a b => b.detConf ≤ a.detConf) :=
  suppress_sorted t cands

/-- C6: suppression is idempotent at any threshold: re-suppressing the
output with the same overlap threshold returns it unchanged. -/
theorem C6_idempotent (t : ℚ) (cands : List YoloDetection) :
    suppress t (suppress t cands) = suppress t cands :=
  suppress_idem t cands

/-- The Rect constructor always yields a well-formed rectangle. -/
theorem Rect_min_le_max (x0 y0 x1 y1 : ℤ) :
    (Rect x0 y0 x1 y1).min.x ≤ (Rect x0 y0 x1 y1).max.x ∧
    (Rect x0 y0 x1 y1).min.y ≤ (Rect x0 y0 x1 y1).max.y := by
  simp only [Rect]
  by_cases hx : x1 < x0 <;> by_cases hy : y1 < y0 <;>
    simp [hx, hy] <;> omega

/-- The area of a constructed rectangle is non-negative. -/
theorem boxArea_Rect_nonneg (x0 y0 x1 y1 : ℤ) : 0 ≤ boxArea (Rect x0 y0 x1 y1) := by
  obtain ⟨h1, h2⟩ := Rect_min_le_max x0 y0 x1 y1
  simp only [boxArea, Rectangle.Size]
  exact mul_nonneg (by omega) (by omega)

/-- The area of any intersection is non-negative: an empty clip is replaced
by the zero rectangle, and a non-empty clip has positive sizes. -/
theorem boxArea_intersect_nonneg (r s : Rectangle) : 0 ≤ boxArea (r.Intersect s) := by
  unfold Rectangle.Intersect
  dsimp only
  by_cases h : (Rectangle.mk
      ⟨Max.max r.min.x s.min.x, Max.max r.min.y s.min.y⟩
      ⟨Min.min r.max.x s.max.x, Min.min r.max.y s.max.y⟩).Empty = true
  · rw [if_pos h]
    simp [boxArea, ZR, Rectangle.Size]
  · rw [if_neg h]
    simp only [Rectangle.Empty, Bool.or_eq_true, decide_eq_true_eq, not_or, not_le] at h
    obtain ⟨h1, h2⟩ := h
    simp only [boxArea, Rectangle.Size]
    exact mul_nonneg (by omega) (by omega)

/-- C8: when the winning class index has no entry in the label list and the
confidence clears the threshold, the decoder stops with the distinguished
lookup error naming that index, and in particular never emits a candidate
with a clamped index or a blank name. -/
theorem C8_lookup_error (L : List String) (fw fh : ℤ) (thr : ℚ)
    (row : List ℚ) (i : ℕ) (c : ℚ)
    (hA : argmaxFrom (row.drop 5) = some (i, c)) (ht : thr < c)
    (hL : L[i]? = none) :
    decodeRow L fw fh thr row = Except.error (DecodeErr.lookupError i) ∧
    ∀ d : YoloDetection, decodeRow L fw fh thr row ≠ Except.ok (some d) := by
  have h := @decodeRow_lookup_fails L fw fh thr row i c hA ht hL
  refine ⟨h, ?_⟩
  intro d hd
  rw [h] at hd
  cases hd

/-- Witness for C8: an empty label list with a confident row. -/
theorem C8_lookup_error_witness :
    decodeRow [] 100 100 (1/2) [0, 0, 0, 0, 0, 9/10]
      = Except.error (DecodeErr.lookupError 0) :=
  (C8_lookup_error [] 100 100 (1/2) [0, 0, 0, 0, 0, 9/10] 0 (9/10) rfl
    (by norm_num) rfl).1

/-- C9: empty input is not an error: a decode of zero layers or of a layer
with zero rows returns ok with the empty candidate list, and suppressing an
empty candidate list returns the empty list. -/
theorem C9_empty_ok (L : List String) (fw fh : ℤ) (thr t : ℚ) :
    decodeLayers L fw fh thr [] = Except.ok [] ∧
    decodeLayers L fw fh thr [[]] = Except.ok [] ∧
    suppress t [] = [] :=
  ⟨rfl, rfl, rfl⟩

/-- C10: the rectangle constructor canonicalizes its corners, every
intersection has non-negative area, and every emitted candidate box has
non-negative area, so the suppression test never sees a strictly negative
candidate area. -/
theorem C10_canonical_boxes (x0 y0 x1 y1 : ℤ) (r s : Rectangle)
    (L : List String) (fw fh : ℤ) (thr : ℚ) (row : List ℚ) (d : YoloDetection) :
    ((Rect x0 y0 x1 y1).min.x ≤ (Rect x0 y0 x1 y1).max.x ∧
     (Rect x0 y0 x1 y1).min.y ≤ (Rect x0 y0 x1 y1).max.y) ∧
    0 ≤ boxArea (r.Intersect s) ∧
    (decodeRow L fw fh thr row = Except.ok (some d) → 0 ≤ boxArea d.detBBox) := by
  refine ⟨Rect_min_le_max x0 y0 x1 y1, boxArea_intersect_nonneg r s, ?_⟩
  intro h
  rw [(decodeRow_ok_some h).2.2.2]
  exact boxArea_Rect_nonneg _ _ _ _

/-- Witness for C10 at a concrete emitted candidate. -/
theorem C10_canonical_boxes_witness :
    0 ≤ boxArea ((⟨0, "a", (9:ℚ)/10, Rect 40 40 60 60⟩ : YoloDetection).detBBox) :=
  (C10_canonical_boxes 0 0 0 0 ZR ZR ["a"] 100 100 (1/2)
    [1/2, 1/2, 1/5, 1/5, 0, 9/10] ⟨0, "a", 9/10, Rect 40 40 60 60⟩).2.2
    (by norm_num [decodeRow, argmaxFrom, qtrunc, Rect]; decide)

/-- C2 counterexample: the decoder takes its score columns from index 5,
not index 4.  For the row [0, 0, 0, 0, 9/10, 6/10] the emitted confidence
is 6/10, yet column 4 holds 9/10, which belongs to columns 4..N and is
strictly greater, so the emitted confidence is not the maximum over
columns 4..N as claimed. -/
theorem C2_counterexample :
    decodeRow ["a"] 100 100 (1/2) [0, 0, 0, 0, 9/10, 6/10]
      = Except.ok (some ⟨0, "a", 6/10, Rect 0 0 0 0⟩) ∧
    (9:ℚ)/10 ∈ ([0, 0, 0, 0, 9/10, 6/10] : List ℚ).drop 4 ∧
    ¬ ((9:ℚ)/10 ≤ 6/10) := by
  refine ⟨?_, ?_, by norm_num⟩
  · norm_num [decodeRow, argmaxFrom, qtrunc, Rect]
  · norm_num

/-- C2 amended: the score columns are columns 5..N of the row (columns 0-3
are geometry and column 4 is skipped as well); the emitted confidence is the
maximum over those columns, classId is the index of the first occurrence of
that maximum within them, and classId indexes the label list directly. -/
theorem C2_amended_scores_from_five (L : List String) (fw fh : ℤ) (thr : ℚ)
    (row : List ℚ) (d : YoloDetection)
    (h : decodeRow L fw fh thr row = Except.ok (some d)) :
    d.detConf ∈ row.drop 5 ∧
    (∀ x ∈ row.drop 5, x ≤ d.detConf) ∧
    (row.drop 5)[d.detClass]? = some d.detConf ∧
    (∀ j, j < d.detClass → ∀ x, (row.drop 5)[j]? = some x → x < d.detConf) ∧
    L[d.detClass]? = some d.detName := by
  obtain ⟨hA, ht, hL, hbox⟩ := decodeRow_ok_some h
  have hget := argmaxFrom_getElem hA
  exact ⟨List.getElem?_mem hget, argmaxFrom_le hA, hget, argmaxFrom_first hA, hL⟩

/-- Witness for the amended C2 at a concrete row. -/
theorem C2_amended_witness :
    ((9:ℚ)/10 ∈ ([0, 0, 0, 0, 0, (9:ℚ)/10] : List ℚ).drop 5) ∧
    (∀ x ∈ ([0, 0, 0, 0, 0, (9:ℚ)/10] : List ℚ).drop 5, x ≤ (9:ℚ)/10) ∧
    (([0, 0, 0, 0, 0, (9:ℚ)/10] : List ℚ).drop 5)[(0:ℕ)]? = some ((9:ℚ)/10) ∧
    (∀ j, j < 0 → ∀ x, (([0, 0, 0, 0, 0, (9:ℚ)/10] : List ℚ).drop 5)[j]? = some x
      → x < (9:ℚ)/10) ∧
    (["a"] : List String)[(0:ℕ)]? = some "a" :=
  C2_amended_scores_from_five ["a"] 100 100 (1/2) [0, 0, 0, 0, 0, 9/10]
    ⟨0, "a", 9/10, Rect 0 0 0 0⟩
    (by norm_num [decodeRow, argmaxFrom, qtrunc, Rect])

/-- C7 counterexample: two layers whose single rows decode to two
equal-confidence detections of different classes over the same box.  The two
layer orders decode to permuted candidate lists, but suppression keeps
whichever detection came first, so the final output depends on the layer
order. -/
theorem C7_counterexample :
    ([[[1/2, 1/2, 1/5, 1/5, 0, 9/10, 1/10]],
      [[1/2, 1/2, 1/5, 1/5, 0, 1/10, 9/10]]] : List (List (List ℚ))).Perm
      [[[1/2, 1/2, 1/5, 1/5, 0, 1/10, 9/10]],
       [[1/2, 1/2, 1/5, 1/5, 0, 9/10, 1/10]]] ∧
    decodeLayers ["a", "b"] 100 100 (1/2)
        [[[1/2, 1/2, 1/5, 1/5, 0, 9/10, 1/10]],
         [[1/2, 1/2, 1/5, 1/5, 0, 1/10, 9/10]]]
      = Except.ok [⟨0, "a", 9/10, Rect 40 40 60 60⟩, ⟨1, "b", 9/10, Rect 40 40 60 60⟩] ∧
    decodeLayers ["a", "b"] 100 100 (1/2)
        [[[1/2, 1/2, 1/5, 1/5, 0, 1/10, 9/10]],
         [[1/2, 1/2, 1/5, 1/5, 0, 9/10, 1/10]]]
      = Except.ok [⟨1, "b", 9/10, Rect 40 40 60 60⟩, ⟨0, "a", 9/10, Rect 40 40 60 60⟩] ∧
    suppress (2/5) [⟨0, "a", 9/10, Rect 40 40 60 60⟩, ⟨1, "b", 9/10, Rect 40 40 60 60⟩]
      ≠ suppress (2/5) [⟨1, "b", 9/10, Rect 40 40 60 60⟩, ⟨0, "a", 9/10, Rect 40 40 60 60⟩] := by
  refine ⟨List.Perm.swap _ _ _, ?_, ?_, ?_⟩
  · norm_num [decodeLayers, decodeRows, decodeRow, argmaxFrom, qtrunc, Rect]
    decide
  · norm_num [decodeLayers, decodeRows, decodeRow, argmaxFrom, qtrunc, Rect]
    decide
  · norm_num [suppress, sortDesc, insertDesc, nmsFilter, suppressTest, boxArea,
      Rectangle.Intersect, Rectangle.Size, Rectangle.Empty, Rect, ZR]

/-- C7 amended: permuting the layer sequence yields a permutation (hence the
same set) of decoded candidates, and when in addition the candidate
confidences are pairwise distinct the final suppressed output is identical
regardless of the layer order; with tied confidences the final output may
depend on the order. -/
theorem C7_amended_perm_invariance (L : List String) (fw fh : ℤ) (thr t : ℚ)
    (ls1 ls2 : List (List (List ℚ))) (ys1 ys2 : List YoloDetection)
    (hperm : ls1.Perm ls2)
    (h1 : decodeLayers L fw fh thr ls1 = Except.ok ys1)
    (h2 : decodeLayers L fw fh thr ls2 = Except.ok ys2) :
    ys1.Perm ys2 ∧
    ((ys1.Pairwise fun a b => a.detConf ≠ b.detConf) →
      suppress t ys1 = suppress t ys2) := by
  have h := decodeLayers_perm L fw fh thr hperm
  rw [h1, h2] at h
  simp only [ExceptPerm] at h
  exact ⟨h, fun hnd => suppress_eq_of_perm h hnd⟩

/-- Witness for the amended C7: two layers with distinct confidences give
permuted candidates and the same suppressed output in either order. -/
theorem C7_amended_witness :
    ([⟨0, "a", (9:ℚ)/10, Rect 40 40 60 60⟩, ⟨1, "b", (4:ℚ)/5, Rect 40 40 60 60⟩]
      : List YoloDetection).Perm
      [⟨1, "b", (4:ℚ)/5, Rect 40 40 60 60⟩, ⟨0, "a", (9:ℚ)/10, Rect 40 40 60 60⟩] ∧
    suppress (2/5) [⟨0, "a", (9:ℚ)/10, Rect 40 40 60 60⟩, ⟨1, "b", (4:ℚ)/5, Rect 40 40 60 60⟩]
      = suppress (2/5) [⟨1, "b", (4:ℚ)/5, Rect 40 40 60 60⟩, ⟨0, "a", (9:ℚ)/10, Rect 40 40 60 60⟩] := by
  have h := C7_amended_perm_invariance ["a", "b"] 100 100 (1/2) (2/5)
    [[[1/2, 1/2, 1/5, 1/5, 0, 9/10, 1/10]], [[1/2, 1/2, 1/5, 1/5, 0, 1/10, 4/5]]]
    [[[1/2, 1/2, 1/5, 1/5, 0, 1/10, 4/5]], [[1/2, 1/2, 1/5, 1/5, 0, 9/10, 1/10]]]
    [⟨0, "a", 9/10, Rect 40 40 60 60⟩, ⟨1, "b", 4/5, Rect 40 40 60 60⟩]
    [⟨1, "b", 4/5, Rect 40 40 60 60⟩, ⟨0, "a", 9/10, Rect 40 40 60 60⟩]
    (List.Perm.swap _ _ _)
    (by norm_num [decodeLayers, decodeRows, decodeRow, argmaxFrom, qtrunc, Rect]; decide)
    (by norm_num [decodeLayers, decodeRows, decodeRow, argmaxFrom, qtrunc, Rect]; decide)
  refine ⟨h.1, h.2 ?_⟩
  refine List.pairwise_cons.mpr ⟨?_, ?_⟩
  · intro b hb
    rcases List.mem_singleton.mp hb with rfl
    norm_num
  · simp

end Yolo4
